import Mathlib

/-!
Shallow embedding of the MIDI packet-list encoder/decoder of `src/packets.rs`
from the `coremidi` crate: the `PacketBuffer` builder, the `PacketList` view
and `PacketListIterator`.

A buffer is modelled as a `List Nat` of byte values.  Multi-byte fields are
little-endian, matching the platform the byte-level test vector assumes
(all supported targets of the crate are little-endian).  The platform's
record-alignment requirement (4 on ARM targets, 1 elsewhere) is passed as an
explicit parameter `A`, following the spec's presentation of alignment as a
configuration value.  The `assert!` in `with_data` is modelled by returning
`Option`, with `none` standing for the panic.
-/

namespace CoreMidi

/-- Little-endian store of a `w`-byte machine integer holding `v`
(truncates to `v % 256 ^ w`). -/
def toLE : Nat → Nat → List Nat
  | 0, _ => []
  | w + 1, v => v % 256 :: toLE w (v / 256)

/-- Little-endian read of a `w`-byte machine integer from the front of `bs`
(missing bytes read as 0). -/
def readLE : Nat → List Nat → Nat
  | 0, _ => 0
  | _ + 1, [] => 0
  | w + 1, b :: bs => b + 256 * readLE w bs

/-- `PACKET_LIST_HEADER_SIZE`: the 4-byte `numPackets: UInt32` field. -/
def PACKET_LIST_HEADER_SIZE : Nat := 4

/-- `PACKET_HEADER_SIZE`: 8-byte `timeStamp` plus 2-byte `length`. -/
def PACKET_HEADER_SIZE : Nat := 8 + 2

/-- `MAX_PACKET_DATA_LENGTH = 0xffff`. -/
def MAX_PACKET_DATA_LENGTH : Nat := 0xffff

/-- Byte image of one appended packet: 8-byte little-endian timestamp,
2-byte little-endian length, then the payload (the `#[repr(packed)]`
`PacketInner` layout). -/
def encodePacket (timestamp : Nat) (data : List Nat) : List Nat :=
  toLE 8 timestamp ++ toLE 2 data.length ++ data

/-- Read of the `numPackets` field: the buffer's first four bytes as a
native (little-endian) `u32`. -/
def numPackets (buf : List Nat) : Nat := readLE 4 buf

/-- Store of the `numPackets` field: overwrite the buffer's first four
bytes with the `u32` image of `n`. -/
def setNumPackets (buf : List Nat) (n : Nat) : List Nat :=
  toLE 4 n ++ buf.drop 4

/-- Modelled from the spec: `MIDIPacketListInit` lives in the external
`coremidi-sys` crate, not in this repository; per the spec it initialises
the list header's count field to zero. -/
def MIDIPacketListInit (buf : List Nat) : List Nat := setNumPackets buf 0

/-- `PacketBuffer::new`: a 4-byte region (`set_len(4)`; its prior contents
are irrelevant because `MIDIPacketListInit` overwrites all four bytes)
with the count field initialised to 0. -/
def PacketBuffer.new : List Nat :=
  MIDIPacketListInit (List.replicate PACKET_LIST_HEADER_SIZE 0)

/-- `PacketBuffer::with_data`: panics (modelled as `none`) unless
`data.len() < MAX_PACKET_DATA_LENGTH`; otherwise appends the 10-byte packet
header and the payload at the current end of the buffer and increments the
count field, re-read from the grown buffer. -/
def PacketBuffer.with_data (buf : List Nat) (timestamp : Nat) (data : List Nat) :
    Option (List Nat) :=
  if data.length < MAX_PACKET_DATA_LENGTH then
    let grown := buf ++ encodePacket timestamp data
    some (setNumPackets grown (numPackets grown + 1))
  else
    none

/-- `PacketBuffer::from_data`: `Self::new().with_data(timestamp, data)`. -/
def PacketBuffer.from_data (timestamp : Nat) (data : List Nat) : Option (List Nat) :=
  PacketBuffer.with_data PacketBuffer.new timestamp data

/-- `PacketList::length`: the count field converted to `usize`. -/
def PacketList.length (buf : List Nat) : Nat := numPackets buf

/-- Round `x` up to the next multiple of the alignment `A`. -/
def alignUp (A x : Nat) : Nat := (x + A - 1) / A * A

/-- Modelled from the spec: `MIDIPacketNext` lives in the external
`coremidi-sys` crate; per the spec the next record address is the current
address plus the 10-byte header plus the data length, rounded up to the
platform's record alignment `A` (4 on architectures that require it,
1 — no rounding — otherwise). -/
def MIDIPacketNext (A ofs len : Nat) : Nat :=
  alignUp A (ofs + PACKET_HEADER_SIZE + len)

/-- Iterator state: remaining `count` and the current packet offset
(the `packet_ptr`, kept as an offset from the buffer base). -/
structure PacketListIterator where
  count : Nat
  ofs : Nat
deriving DecidableEq

/-- `PacketList::iter`: a fresh iterator whose `count` is `length()` and
whose cursor is the first byte after the 4-byte list header. -/
def PacketList.iter (buf : List Nat) : PacketListIterator :=
  ⟨PacketList.length buf, PACKET_LIST_HEADER_SIZE⟩

/-- `PacketListIterator::next`, with the yielded `&Packet` view decoded to
its observable `(timestamp(), data())` pair: if `count > 0`, yield the
packet at the cursor, decrement `count` and advance the cursor by
`MIDIPacketNext`; otherwise yield `None`. -/
def PacketListIterator.next (A : Nat) (buf : List Nat) (it : PacketListIterator) :
    Option ((Nat × List Nat) × PacketListIterator) :=
  if it.count > 0 then
    let len := readLE 2 (buf.drop (it.ofs + 8))
    some ((readLE 8 (buf.drop it.ofs), (buf.drop (it.ofs + 10)).take len),
      ⟨it.count - 1, MIDIPacketNext A it.ofs len⟩)
  else
    none

/-- Unfolding of the iterator loop: collect the packets yielded from a
given remaining count and cursor offset.  The recursion is bounded by the
count exactly as in the source, where `next` returns `None` once the count
reaches 0. -/
def drainFrom (A : Nat) (buf : List Nat) : Nat → Nat → List (Nat × List Nat)
  | 0, _ => []
  | c + 1, ofs =>
    let len := readLE 2 (buf.drop (ofs + 8))
    (readLE 8 (buf.drop ofs), (buf.drop (ofs + 10)).take len)
      :: drainFrom A buf c (MIDIPacketNext A ofs len)

/-- All packets yielded by repeatedly calling `next` on an iterator. -/
def drain (A : Nat) (buf : List Nat) (it : PacketListIterator) : List (Nat × List Nat) :=
  drainFrom A buf it.count it.ofs

/-- Byte image of the record region produced by appending the given
`(timestamp, data)` pairs in order. -/
def records : List (Nat × List Nat) → List Nat
  | [] => []
  | p :: ps => encodePacket p.1 p.2 ++ records ps

/-- Fold a list of `(timestamp, data)` pairs over `with_data`. -/
def appendAll : List (Nat × List Nat) → List Nat → Option (List Nat)
  | [], buf => some buf
  | p :: ps, buf =>
    match PacketBuffer.with_data buf p.1 p.2 with
    | some buf2 => appendAll ps buf2
    | none => none

theorem toLE_length (w v : Nat) : (toLE w v).length = w := by
  induction w generalizing v with
  | zero => rfl
  | succ k ih => simp [toLE, ih]

theorem drain_eq_next (A : Nat) (buf : List Nat) (it : PacketListIterator) :
    drain A buf it =
      match PacketListIterator.next A buf it with
      | none => []
      | some (p, it2) => p :: drain A buf it2 := by
  obtain ⟨c, ofs⟩ := it
  cases c with
  | zero => rfl
  | succ k => simp [drain, drainFrom, PacketListIterator.next]

theorem readLE_toLE_append (w : Nat) : ∀ (v : Nat) (rest : List Nat),
    readLE w (toLE w v ++ rest) = v % 256 ^ w := by
  induction w with
  | zero => intro v rest; simp [readLE, toLE, Nat.mod_one]
  | succ k ih =>
    intro v rest
    show readLE (k + 1) (v % 256 :: (toLE k (v / 256) ++ rest)) = v % 256 ^ (k + 1)
    rw [readLE, ih, pow_succ']
    exact (Nat.mod_mul ..).symm

theorem toLE_mod (w : Nat) : ∀ v : Nat, toLE w (v % 256 ^ w) = toLE w v := by
  induction w with
  | zero => intro v; rfl
  | succ k ih =>
    intro v
    have h1 : v % 256 ^ (k + 1) % 256 = v % 256 :=
      Nat.mod_mod_of_dvd v (dvd_pow_self 256 (Nat.succ_ne_zero k))
    have h2 : v % 256 ^ (k + 1) / 256 = v / 256 % 256 ^ k := by
      rw [pow_succ']
      exact Nat.mod_mul_right_div_self v 256 (256 ^ k)
    simp [toLE, h1, h2, ih]

theorem drop_toLE4_append (c : Nat) (X : List Nat) :
    (toLE 4 c ++ X).drop 4 = X := by
  have h := List.drop_left (toLE 4 c) X
  rwa [toLE_length] at h

theorem with_data_eq (c : Nat) (R : List Nat) (t : Nat) (d : List Nat)
    (h : d.length < MAX_PACKET_DATA_LENGTH) :
    PacketBuffer.with_data (toLE 4 c ++ R) t d
      = some (toLE 4 (c + 1) ++ (R ++ encodePacket t d)) := by
  simp only [PacketBuffer.with_data, if_pos h]
  rw [List.append_assoc]
  unfold setNumPackets numPackets
  rw [readLE_toLE_append, drop_toLE4_append]
  have hcount : toLE 4 (c % 256 ^ 4 + 1) = toLE 4 (c + 1) :=
    calc toLE 4 (c % 256 ^ 4 + 1)
        = toLE 4 ((c % 256 ^ 4 + 1) % 256 ^ 4) := (toLE_mod 4 _).symm
      _ = toLE 4 ((c + 1) % 256 ^ 4) := by rw [Nat.mod_add_mod]
      _ = toLE 4 (c + 1) := toLE_mod 4 _
  rw [hcount]

theorem appendAll_shape : ∀ (L : List (Nat × List Nat)) (c : Nat) (R : List Nat),
    (∀ p ∈ L, (p.2 : List Nat).length < MAX_PACKET_DATA_LENGTH) →
    appendAll L (toLE 4 c ++ R) = some (toLE 4 (c + L.length) ++ (R ++ records L)) := by
  intro L
  induction L with
  | nil => intro c R _; simp [appendAll, records]
  | cons p ps ih =>
    intro c R h
    have hp : (p.2 : List Nat).length < MAX_PACKET_DATA_LENGTH :=
      h p (List.mem_cons_self p ps)
    simp only [appendAll]
    rw [with_data_eq c R p.1 p.2 hp]
    show appendAll ps (toLE 4 (c + 1) ++ (R ++ encodePacket p.1 p.2)) = _
    rw [ih (c + 1) (R ++ encodePacket p.1 p.2) (fun q hq => h q (List.mem_cons_of_mem p hq))]
    have hc : c + 1 + ps.length = c + (p :: ps).length := by
      simp [List.length_cons]; omega
    rw [hc, List.append_assoc]
    rfl

theorem appendAll_new (L : List (Nat × List Nat))
    (h : ∀ p ∈ L, (p.2 : List Nat).length < MAX_PACKET_DATA_LENGTH) :
    appendAll L PacketBuffer.new = some (toLE 4 L.length ++ records L) := by
  have hnew : PacketBuffer.new = toLE 4 0 ++ ([] : List Nat) := by decide
  rw [hnew, appendAll_shape L 0 [] h]
  simp

theorem drop_toLE_append (w v : Nat) (X : List Nat) : (toLE w v ++ X).drop w = X := by
  have h := List.drop_left (toLE w v) X
  rwa [toLE_length] at h

theorem drainFrom_records : ∀ (L : List (Nat × List Nat)) (P : List Nat),
    (∀ p ∈ L, p.1 < 256 ^ 8 ∧ (p.2 : List Nat).length < MAX_PACKET_DATA_LENGTH) →
    drainFrom 1 (P ++ records L) L.length P.length = L := by
  intro L
  induction L with
  | nil => intro P _; rfl
  | cons p ps ih =>
    intro P h
    obtain ⟨t, d⟩ := p
    obtain ⟨ht0, hd0⟩ := h (t, d) (List.mem_cons_self _ ps)
    have ht : t < 256 ^ 8 := ht0
    have hd : d.length < MAX_PACKET_DATA_LENGTH := hd0
    have hd2 : d.length < 256 ^ 2 := by
      have h2 : (256 : Nat) ^ 2 = 65536 := by norm_num
      have hm : MAX_PACKET_DATA_LENGTH = 65535 := rfl
      omega
    have hrec : records ((t, d) :: ps) = encodePacket t d ++ records ps := rfl
    have hbytes : encodePacket t d ++ records ps
        = toLE 8 t ++ (toLE 2 d.length ++ (d ++ records ps)) := by
      simp [encodePacket, List.append_assoc]
    have hdrop0 : (P ++ records ((t, d) :: ps)).drop P.length
        = toLE 8 t ++ (toLE 2 d.length ++ (d ++ records ps)) := by
      rw [List.drop_left, hrec, hbytes]
    have hdrop8 : (P ++ records ((t, d) :: ps)).drop (P.length + 8)
        = toLE 2 d.length ++ (d ++ records ps) := by
      rw [List.drop_append, hrec, hbytes, drop_toLE_append]
    have hlen : readLE 2 ((P ++ records ((t, d) :: ps)).drop (P.length + 8)) = d.length := by
      rw [hdrop8, readLE_toLE_append]
      exact Nat.mod_eq_of_lt hd2
    have hts : readLE 8 ((P ++ records ((t, d) :: ps)).drop P.length) = t := by
      rw [hdrop0, readLE_toLE_append]
      exact Nat.mod_eq_of_lt ht
    have hdrop10 : (P ++ records ((t, d) :: ps)).drop (P.length + 10)
        = d ++ records ps := by
      rw [List.drop_append, hrec, hbytes, ← List.append_assoc]
      have hlen10 : (toLE 8 t ++ toLE 2 d.length).length = 10 := by
        simp [List.length_append, toLE_length]
      rw [← hlen10, List.drop_left]
    have hdata : ((P ++ records ((t, d) :: ps)).drop (P.length + 10)).take d.length = d := by
      rw [hdrop10]
      exact List.take_left d (records ps)
    have halign : MIDIPacketNext 1 P.length d.length
        = (P ++ encodePacket t d).length := by
      simp [MIDIPacketNext, alignUp, PACKET_HEADER_SIZE, encodePacket, toLE_length,
        List.length_append]
      omega
    have hbuf : P ++ records ((t, d) :: ps) = (P ++ encodePacket t d) ++ records ps := by
      rw [hrec, List.append_assoc]
    simp only [List.length_cons]
    simp only [drainFrom]
    rw [hlen, hts, hdata, halign, hbuf]
    exact congrArg (List.cons (t, d))
      (ih (P ++ encodePacket t d) (fun q hq => h q (List.mem_cons_of_mem _ hq)))

theorem drainFrom_length (A : Nat) (buf : List Nat) :
    ∀ (c : Nat) (ofs : Nat), (drainFrom A buf c ofs).length = c := by
  intro c
  induction c with
  | zero => intro ofs; rfl
  | succ k ih => intro ofs; simp [drainFrom, ih]

/-- Buffer produced by appending `(0, [144, 64, 127])` then `(7, [1, 2])`. -/
def sampleBuf : List Nat := toLE 4 2 ++ records [(0, [144, 64, 127]), (7, [1, 2])]

/-- Buffer produced by appending `(0, [9, 9, 9])` then `(7, [1, 2, 3])`. -/
def align4Buf : List Nat := toLE 4 2 ++ records [(0, [9, 9, 9]), (7, [1, 2, 3])]

/-- Buffer produced by appending the single pair `(0, [1])`. -/
def oneBuf : List Nat := toLE 4 1 ++ records [(0, [1])]

/-- C1 (amended: on a platform whose record alignment is 1, i.e. without
padding, and with fewer than `2 ^ 32` records): building a `PacketBuffer` by
appending a list of `(timestamp, bytes)` pairs in order via `with_data`, each
timestamp a `u64` value and each payload below the packet limit, and then
iterating the resulting `PacketList` yields exactly that list back — the same
number of records, in insertion order, with each yielded record's
`timestamp()` and `data()` equal to the appended pair. -/
theorem packetBuffer_roundTrip (L : List (Nat × List Nat)) (buf : List Nat)
    (hp : ∀ p ∈ L, p.1 < 2 ^ 64 ∧ (p.2 : List Nat).length < MAX_PACKET_DATA_LENGTH)
    (hn : L.length < 2 ^ 32)
    (hb : appendAll L PacketBuffer.new = some buf) :
    drain 1 buf (PacketList.iter buf) = L ∧
    (drain 1 buf (PacketList.iter buf)).length = L.length := by
  have hpow : (2 : Nat) ^ 64 = 256 ^ 8 := by norm_num
  have hp' : ∀ p ∈ L, p.1 < 256 ^ 8 ∧ (p.2 : List Nat).length < MAX_PACKET_DATA_LENGTH :=
    fun p hq => ⟨hpow ▸ (hp p hq).1, (hp p hq).2⟩
  have hb2 := appendAll_new L (fun p hq => (hp p hq).2)
  have hbuf : buf = toLE 4 L.length ++ records L := Option.some.inj (hb.symm.trans hb2)
  subst hbuf
  have hmain : drain 1 (toLE 4 L.length ++ records L)
      (PacketList.iter (toLE 4 L.length ++ records L)) = L := by
    show drainFrom 1 (toLE 4 L.length ++ records L)
      (PacketList.length (toLE 4 L.length ++ records L)) PACKET_LIST_HEADER_SIZE = L
    have hcount : PacketList.length (toLE 4 L.length ++ records L) = L.length := by
      unfold PacketList.length numPackets
      rw [readLE_toLE_append]
      exact Nat.mod_eq_of_lt (by norm_num at hn ⊢; omega)
    rw [hcount,
      show PACKET_LIST_HEADER_SIZE = (toLE 4 L.length).length from (toLE_length 4 _).symm]
    exact drainFrom_records L (toLE 4 L.length) hp'
  exact ⟨hmain, by rw [hmain]⟩

/-- C1 witness: the round trip at the concrete input
`[(0, [144, 64, 127]), (7, [1, 2])]`. -/
theorem packetBuffer_roundTrip_witness :
    appendAll [(0, [144, 64, 127]), (7, [1, 2])] PacketBuffer.new = some sampleBuf ∧
    drain 1 sampleBuf (PacketList.iter sampleBuf) = [(0, [144, 64, 127]), (7, [1, 2])] :=
  ⟨by decide, (packetBuffer_roundTrip [(0, [144, 64, 127]), (7, [1, 2])] sampleBuf
    (by decide) (by decide) (by decide)).1⟩

/-- C1 counterexample: with the record alignment 4 that the claim's sources
also cover, the same two appended pairs do not survive the round trip —
`with_data` writes the second record at the unpadded offset 17, while the
iterator's stepping rule looks for it at the rounded offset 20. -/
theorem roundTrip_align4_counterexample :
    appendAll [(0, [9, 9, 9]), (7, [1, 2, 3])] PacketBuffer.new = some align4Buf ∧
    drain 4 align4Buf (PacketList.iter align4Buf) ≠ [(0, [9, 9, 9]), (7, [1, 2, 3])] := by
  decide

/-- C2: with a 4-byte record alignment, the iterator steps from the first
record (at offset 4, data length 3) to offset 20 = 4 + 10 + 3 + 3 padding
bytes, with the padding count matching the spec's formula; but `with_data`
lays the second record out at offset 17, with no padding at all, so the
builder does not follow the claimed layout rule.  This exhibits the code bug
at a concrete input. -/
theorem with_data_no_padding_divergence :
    appendAll [(0, [9, 9, 9]), (7, [1, 2, 3])] PacketBuffer.new = some align4Buf ∧
    align4Buf.drop 17 = encodePacket 7 [1, 2, 3] ∧
    (4 - (PACKET_HEADER_SIZE + 3) % 4) % 4 = 3 ∧
    MIDIPacketNext 4 PACKET_LIST_HEADER_SIZE 3 = 20 ∧
    align4Buf.drop 20 ≠ encodePacket 7 [1, 2, 3] := by
  decide

/-- C3: `with_data` fails (panics, modelled as `none`) exactly when the
payload length is at least 65535; every shorter payload succeeds. -/
theorem with_data_panics_iff (buf : List Nat) (t : Nat) (d : List Nat) :
    PacketBuffer.with_data buf t d = none ↔ 65535 ≤ d.length := by
  have hm : MAX_PACKET_DATA_LENGTH = 65535 := rfl
  by_cases h : d.length < MAX_PACKET_DATA_LENGTH
  · simp only [PacketBuffer.with_data, if_pos h]
    simp
    omega
  · simp only [PacketBuffer.with_data, if_neg h]
    simp
    omega

/-- C4 counterexample: a payload of exactly 65535 bytes is rejected
(`with_data` panics), contradicting the claim that it is accepted. -/
theorem with_data_rejects_65535 :
    PacketBuffer.with_data PacketBuffer.new 0 (List.replicate 65535 0) = none := by
  unfold PacketBuffer.with_data MAX_PACKET_DATA_LENGTH
  rw [List.length_replicate]
  norm_num

/-- C4 (amended): a record's payload may have any length from 0 to 65534
inclusive; `with_data` accepts every such payload, while a payload of exactly
65535 bytes is rejected by the `assert!`. -/
theorem with_data_accepts_le_65534 (buf : List Nat) (t : Nat) (d : List Nat)
    (h : d.length ≤ 65534) :
    ∃ buf2, PacketBuffer.with_data buf t d = some buf2 := by
  have hlt : d.length < MAX_PACKET_DATA_LENGTH := by
    have hm : MAX_PACKET_DATA_LENGTH = 65535 := rfl
    omega
  exact ⟨setNumPackets (buf ++ encodePacket t d) (numPackets (buf ++ encodePacket t d) + 1),
    by simp [PacketBuffer.with_data, if_pos hlt]⟩

/-- C4 witness: the amended bound at a concrete 3-byte payload. -/
theorem with_data_accepts_le_65534_witness :
    (([144, 64, 127] : List Nat).length ≤ 65534) ∧
    (∃ buf2, PacketBuffer.with_data PacketBuffer.new 0 [144, 64, 127] = some buf2) :=
  ⟨by decide, with_data_accepts_le_65534 PacketBuffer.new 0 [144, 64, 127] (by decide)⟩

/-- C5: appending timestamp `0x0102030405060708` with data `[0x90, 0x40,
0x7f]` to an empty builder produces exactly the 17-byte buffer
`01 00 00 00 | 08 07 06 05 04 03 02 01 | 03 00 | 90 40 7f` on a
little-endian platform without padding. -/
theorem single_packet_exact_bytes :
    PacketBuffer.with_data PacketBuffer.new 0x0102030405060708 [0x90, 0x40, 0x7f]
      = some [0x01, 0x00, 0x00, 0x00,
              0x08, 0x07, 0x06, 0x05, 0x04, 0x03, 0x02, 0x01,
              0x03, 0x00,
              0x90, 0x40, 0x7f] := by
  decide

/-- C6 (amended: the count is a 4-byte field, so it equals the number of
appends modulo `2 ^ 32` — hence the append count exactly whenever fewer than
`2 ^ 32` appends happened): for every builder state reachable from `new()`
by successive `with_data` calls, the buffer's first 4 bytes read as a `u32`
and `length()` both equal the append count mod `2 ^ 32`; the buffer is the
4-byte header followed by the record images; and each further `with_data`
leaves every previously appended byte unchanged, only appending new bytes
and rewriting the count, so the buffer size strictly grows. -/
theorem count_invariant (L : List (Nat × List Nat)) (buf : List Nat)
    (hp : ∀ p ∈ L, (p.2 : List Nat).length < MAX_PACKET_DATA_LENGTH)
    (hb : appendAll L PacketBuffer.new = some buf) :
    numPackets buf = L.length % 2 ^ 32 ∧
    PacketList.length buf = L.length % 2 ^ 32 ∧
    buf.length = 4 + (records L).length ∧
    (∀ t d buf2, PacketBuffer.with_data buf t d = some buf2 →
      buf2.drop 4 = buf.drop 4 ++ encodePacket t d ∧ buf.length < buf2.length) := by
  have hb2 := appendAll_new L hp
  have hbuf : buf = toLE 4 L.length ++ records L := Option.some.inj (hb.symm.trans hb2)
  subst hbuf
  have hpow : (256 : Nat) ^ 4 = 2 ^ 32 := by norm_num
  have hnum : numPackets (toLE 4 L.length ++ records L) = L.length % 2 ^ 32 := by
    unfold numPackets
    rw [readLE_toLE_append, hpow]
  refine ⟨hnum, hnum, by simp [List.length_append, toLE_length], ?_⟩
  intro t d buf2 hw
  by_cases h : d.length < MAX_PACKET_DATA_LENGTH
  · rw [with_data_eq L.length (records L) t d h] at hw
    have hbuf2 : buf2 = toLE 4 (L.length + 1) ++ (records L ++ encodePacket t d) :=
      (Option.some.inj hw).symm
    subst hbuf2
    refine ⟨by rw [drop_toLE4_append, drop_toLE4_append], ?_⟩
    simp [List.length_append, toLE_length, encodePacket]
  · simp [PacketBuffer.with_data, if_neg h] at hw

/-- C6 witness: the invariant at the concrete single-append state. -/
theorem count_invariant_witness :
    appendAll [(0, [1])] PacketBuffer.new = some oneBuf ∧
    numPackets oneBuf = [((0 : Nat), ([1] : List Nat))].length % 2 ^ 32 :=
  ⟨by decide, (count_invariant [(0, [1])] oneBuf (by decide) (by decide)).1⟩

/-- C6 counterexample: after `2 ^ 32` appends of empty payloads the stored
`u32` count has wrapped to 0, so the first 4 bytes do not equal the append
count as the claim states. -/
theorem count_wraps_at_2pow32 :
    ∃ buf, appendAll (List.replicate (2 ^ 32) ((0 : Nat), ([] : List Nat))) PacketBuffer.new
        = some buf ∧
      numPackets buf ≠ (List.replicate (2 ^ 32) ((0 : Nat), ([] : List Nat))).length := by
  have hp : ∀ p ∈ List.replicate (2 ^ 32) ((0 : Nat), ([] : List Nat)),
      (p.2 : List Nat).length < MAX_PACKET_DATA_LENGTH := by
    intro p hq
    rw [List.eq_of_mem_replicate hq]
    decide
  refine ⟨_, appendAll_new _ hp, ?_⟩
  rw [List.length_replicate]
  unfold numPackets
  rw [readLE_toLE_append]
  norm_num

/-- C7: `PacketBuffer::new()` cannot fail and returns a builder whose buffer
is exactly 4 bytes, all zero, whose view reports `length() == 0`. -/
theorem new_buffer_spec :
    PacketBuffer.new = [0, 0, 0, 0] ∧
    PacketBuffer.new.length = 4 ∧
    PacketList.length PacketBuffer.new = 0 := by
  decide

/-- C8: for every buffer and alignment, `iter()` builds a fresh iterator
value from the unchanged view, iterating yields exactly `length()` records,
and once the remaining count is 0 every further `next` call returns `None`. -/
theorem iter_exact_and_terminal (A : Nat) (buf : List Nat) :
    (drain A buf (PacketList.iter buf)).length = PacketList.length buf ∧
    (∀ it : PacketListIterator, it.count = 0 →
      PacketListIterator.next A buf it = none) := by
  constructor
  · exact drainFrom_length A buf (PacketList.length buf) PACKET_LIST_HEADER_SIZE
  · intro it h0
    simp [PacketListIterator.next, h0]

/-- C8 witness: the iteration contract at the concrete empty buffer. -/
theorem iter_exact_and_terminal_witness :
    (drain 1 [0, 0, 0, 0] (PacketList.iter [0, 0, 0, 0])).length
        = PacketList.length [0, 0, 0, 0] ∧
    PacketListIterator.next 1 [0, 0, 0, 0] ⟨0, 4⟩ = none :=
  ⟨(iter_exact_and_terminal 1 [0, 0, 0, 0]).1,
    (iter_exact_and_terminal 1 [0, 0, 0, 0]).2 ⟨0, 4⟩ rfl⟩

/-- C10: for every timestamp and payload below the packet limit,
`PacketBuffer::from_data(t, d)` is exactly `PacketBuffer::new().with_data(t,
d)` and produces the single-record buffer byte for byte. -/
theorem from_data_eq_new_with_data (t : Nat) (d : List Nat)
    (h : d.length < 65535) :
    PacketBuffer.from_data t d = PacketBuffer.with_data PacketBuffer.new t d ∧
    PacketBuffer.from_data t d = some (toLE 4 1 ++ encodePacket t d) := by
  have hm : d.length < MAX_PACKET_DATA_LENGTH := by
    have : MAX_PACKET_DATA_LENGTH = 65535 := rfl
    omega
  refine ⟨rfl, ?_⟩
  show PacketBuffer.with_data PacketBuffer.new t d = _
  rw [show PacketBuffer.new = toLE 4 0 ++ ([] : List Nat) from by decide,
    with_data_eq 0 [] t d hm]
  simp

/-- C10 witness: the equivalence at the concrete note-on packet. -/
theorem from_data_eq_new_with_data_witness :
    (([144, 60, 127] : List Nat).length < 65535) ∧
    PacketBuffer.from_data 0 [144, 60, 127]
      = some (toLE 4 1 ++ encodePacket 0 [144, 60, 127]) :=
  ⟨by decide, (from_data_eq_new_with_data 0 [144, 60, 127] (by decide)).2⟩

end CoreMidi
